import Mathlib

/-!
# Verification of `sveva/evaluate.py` (speaker-verification fairness evaluation)

Shallow embedding of the evaluation core of the `sveva-fair` repository.

Modelling conventions:
* Python floats are modelled as `Option ℚ`: `some q` is the finite value `q`,
  `none` is `NaN`.  Arithmetic on `Option ℚ` propagates `NaN` exactly as IEEE
  float arithmetic does on the expressions occurring in the source (products
  and sums of finite values are finite; any operand `NaN` gives `NaN`).
  Thresholds and scores are plain `ℚ` (the source never treats a `NaN`
  threshold specially).  Division is exact rational division.
* `np.nanargmin` is modelled by `nanargmin`: the index of the first occurrence
  of the smallest non-`NaN` entry, failing (`none`, the `ValueError`) on an
  empty or all-`NaN` vector.  `np.ndarray.argmin` on a vector of plain
  rationals is `nanargmin` of the same vector with every entry finite.
* `sklearn.metrics.det_curve` and `scipy.stats.norm.ppf` are external
  capabilities; they are passed in as function parameters (`Curve`, `ppf`).
* A Python function that can raise is embedded with `Except Unit` (or
  `Option`): `.error ()` / `none` is an uncaught exception.
  `fpfnth_metrics` distinguishes raising (`.error ()`) from the explicit
  `return None` branch (`.ok none`).
* Attribute values and subgroup identifiers are `List Char`; attribute
  (column) names are `String`.  A dataframe is a list of row records.
  `df.query(...)` built from `f"{k}=='{v}'"` strings is modelled as
  exact-equality row filtering (its semantics for attribute values that do
  not contain quote characters); column access on a row uses an association
  list with `[]` for a missing column (missing columns are not exercised by
  any claim).
-/

namespace SvevaFair

/-! ## NaN-aware arithmetic on `Option ℚ` -/

/-- Addition with `NaN` propagation. -/
def oAdd : Option ℚ → Option ℚ → Option ℚ
  | some a, some b => some (a + b)
  | _, _ => none

/-- Multiplication with `NaN` propagation. -/
def oMul : Option ℚ → Option ℚ → Option ℚ
  | some a, some b => some (a * b)
  | _, _ => none

/-- Subtraction with `NaN` propagation. -/
def oSub : Option ℚ → Option ℚ → Option ℚ
  | some a, some b => some (a - b)
  | _, _ => none

/-- Absolute value with `NaN` propagation (`np.absolute`). -/
def oAbs : Option ℚ → Option ℚ
  | some a => some |a|
  | none => none

/-- `max` with `NaN` propagation; only ever evaluated at finite operands. -/
def oMax : Option ℚ → Option ℚ → Option ℚ
  | some a, some b => some (max a b)
  | _, _ => none

/-- Division with `NaN` propagation (exact rational division). -/
def oDivO : Option ℚ → Option ℚ → Option ℚ
  | some a, some b => some (a / b)
  | _, _ => none

/-! ## `np.nanargmin`

Index (and value) of the first occurrence of the smallest non-`NaN` entry;
`none` models the `ValueError` numpy raises on an empty or all-`NaN` input. -/

/-- First index of the minimal non-`NaN` value together with that value. -/
def nanargmin : List (Option ℚ) → Option (Nat × ℚ)
  | [] => none
  | none :: rest => (nanargmin rest).map (fun p => (p.1 + 1, p.2))
  | some x :: rest =>
    match nanargmin rest with
    | none => some (0, x)
    | some (j, b) => if b < x then some (j + 1, b) else some (0, x)

/-! ## String-valued attribute helpers -/

/-- Attribute values and subgroup identifiers. -/
abbrev Val := List Char

/-- `v.replace(" ", "").lower()`: drop spaces, lowercase. -/
def normVal (v : Val) : Val := (v.filter (fun c => c ≠ ' ')).map Char.toLower

/-- Concatenate the parts with `'_'` between them (Python `'_'.join`). -/
def joinUnder : List Val → Val
  | [] => []
  | [x] => x
  | x :: y :: xs => x ++ '_' :: joinUnder (y :: xs)

/-- `s.split('_')` (Python `str.split` with an explicit separator:
`"".split('_') == ['']`). -/
def splitUnder : Val → List Val
  | [] => [[]]
  | c :: cs =>
    if c = '_' then [] :: splitUnder cs
    else
      match splitUnder cs with
      | [] => [[c]]
      | w :: ws => (c :: w) :: ws

/-- Lexicographic (code-point) comparison of strings, as Python `<=` on `str`. -/
def strLe : Val → Val → Bool
  | [], _ => true
  | _ :: _, [] => false
  | a :: as, b :: bs => if a = b then strLe as bs else decide (a < b)

/-- Insert into a sorted list (helper of `sortStrs`). -/
def insertSorted (x : Val) : List Val → List Val
  | [] => [x]
  | y :: ys => if strLe x y then x :: y :: ys else y :: insertSorted x ys

/-- Insertion sort by `strLe` (Python `list.sort()` on strings). -/
def sortStrs : List Val → List Val
  | [] => []
  | x :: xs => insertSorted x (sortStrs xs)

/-! ## Data model -/

/-- One row of the input score table: a score, a binary label and the
categorical attribute columns (association list of column name / value). -/
structure Trial where
  sc : ℚ
  lab : Nat
  attrs : List (String × Val)
deriving DecidableEq, Repr

/-- Column access on a `Trial` row; `[]` for a missing column. -/
def Trial.attr (t : Trial) (k : String) : Val := (List.lookup k t.attrs).getD []

/-- One row of an error-curve table (`fnrs`, `fprs`, `thresholds` columns of
the `df_fpfnth` dataframe), plus any tag columns added later
(subgroup attributes, experiment label). -/
structure CurveRow where
  fnr : Option ℚ
  fpr : Option ℚ
  th : ℚ
  tags : List (String × Val)
deriving DecidableEq, Repr

/-- Tag-column access on a curve row; `[]` for a missing column. -/
def CurveRow.tag (r : CurveRow) (k : String) : Val := (List.lookup k r.tags).getD []

/-- The `df_metrics` dictionary
`{min_cdet, min_cdet_threshold, eer, eer_threshold}`. -/
structure Metrics where
  min_cdet : ℚ
  min_cdet_threshold : ℚ
  eer : ℚ
  eer_threshold : ℚ
deriving DecidableEq, Repr

/-- The two threshold fields a caller of `fpfn_diff` may select. -/
inductive ThresholdType where
  | min_cdet_threshold
  | eer_threshold
deriving DecidableEq, Repr

/-- `metrics_baseline[threshold_type]`. -/
def Metrics.sel (m : Metrics) : ThresholdType → ℚ
  | .min_cdet_threshold => m.min_cdet_threshold
  | .eer_threshold => m.eer_threshold

/-- A Python dict keyed by subgroup identifier, in insertion order. -/
abbrev MetricsMap := List (Val × Metrics)

/-- Python dict assignment `d[k] = v`: overwrite in place (keeping the key's
position) when present, append otherwise. -/
def dictSet (m : MetricsMap) (k : Val) (v : Metrics) : MetricsMap :=
  if m.any (fun p => p.1 == k) then m.map (fun p => if p.1 == k then (k, v) else p)
  else m ++ [(k, v)]

/-- Column assignment `df[k] = v` on a tag association list: overwrite in
place when the column exists, append otherwise. -/
def setAssoc (l : List (String × Val)) (k : String) (v : Val) : List (String × Val) :=
  if l.any (fun p => p.1 == k) then l.map (fun p => if p.1 == k then (k, v) else p)
  else l ++ [(k, v)]

/-- The external `sklearn.metrics.det_curve` capability:
`(scores, labels) ↦ (fprs, fnrs, thresholds)`, `none` when it raises. -/
abbrev Curve := List ℚ → List Nat → Option (List (Option ℚ) × List (Option ℚ) × List ℚ)

/-! ## Embedded source functions (`src/sveva/evaluate.py`) -/

/-- The cost vector of `_compute_min_cdet`:
`np.array([fnr*c_fn*p for fnr in fnrs]) + np.array([fpr*c_fp*(1-p) for fpr in fprs])`. -/
def cdetList (fnrs fprs : List (Option ℚ)) (dcf_p_target dcf_c_fn dcf_c_fp : ℚ) :
    List (Option ℚ) :=
  List.zipWith oAdd
    (fnrs.map (fun fnr => oMul (oMul fnr (some dcf_c_fn)) (some dcf_p_target)))
    (fprs.map (fun fpr => oMul (oMul fpr (some dcf_c_fp)) (some (1 - dcf_p_target))))

/-- `_compute_min_cdet`: minimum of the detection cost function over the
sampled curve; `none` when `np.nanargmin` raises (empty or all-`NaN` costs). -/
def compute_min_cdet (fnrs fprs : List (Option ℚ)) (thresholds : List ℚ)
    (dcf_p_target dcf_c_fn dcf_c_fp : ℚ) : Option (ℚ × ℚ) :=
  match nanargmin (cdetList fnrs fprs dcf_p_target dcf_c_fn dcf_c_fp) with
  | none => none
  | some (min_ix, min_cdet) => some (min_cdet, thresholds.getD min_ix 0)

/-- The vector `np.absolute(fnrs - fprs)` used for the EER selection. -/
def eerDiffList (fnrs fprs : List (Option ℚ)) : List (Option ℚ) :=
  List.zipWith (fun fnr fpr => oAbs (oSub fnr fpr)) fnrs fprs

/-- The result tuple of `_evaluate_sv`. -/
structure EvalResult where
  fnrs : List (Option ℚ)
  fprs : List (Option ℚ)
  thresholds : List ℚ
  min_cdet : ℚ
  min_cdet_threshold : ℚ
  eer : ℚ
  eer_threshold : ℚ
deriving DecidableEq, Repr

/-- `_evaluate_sv`: curve, min-cost operating point, and EER operating point;
`none` when `det_curve` or either `np.nanargmin` raises.  At the selected EER
index the difference is finite, hence both rates are finite and the
`.getD 0` fallback inside `eer` is never taken. -/
def evaluate_sv (curve : Curve) (sc : List ℚ) (lab : List Nat)
    (dcf_p_target dcf_c_fn dcf_c_fp : ℚ) : Option EvalResult :=
  match curve sc lab with
  | none => none
  | some (fprs, fnrs, thresholds) =>
    match compute_min_cdet fnrs fprs thresholds dcf_p_target dcf_c_fn dcf_c_fp with
    | none => none
    | some (min_cdet, min_cdet_threshold) =>
      match nanargmin (eerDiffList fnrs fprs) with
      | none => none
      | some (min_ix, _) =>
        some ⟨fnrs, fprs, thresholds, min_cdet, min_cdet_threshold,
          ((oMax (fprs.getD min_ix none) (fnrs.getD min_ix none)).getD 0) * 100,
          thresholds.getD min_ix 0⟩

/-- Build the `df_fpfnth` dataframe rows from the three curve columns. -/
def mkRows : List (Option ℚ) → List (Option ℚ) → List ℚ → List CurveRow
  | fnr :: fnrs, fpr :: fprs, th :: ths => ⟨fnr, fpr, th, []⟩ :: mkRows fnrs fprs ths
  | _, _, _ => []

/-- `fpfnth_metrics`: `.error ()` models an exception raised inside
`_evaluate_sv`; `.ok none` models the explicit `return None` taken on an
empty input table (the branch marked `#TO DO: silent pass` in the source). -/
def fpfnth_metrics (curve : Curve) (df : List Trial)
    (dcf_p_target dcf_c_fn dcf_c_fp : ℚ) :
    Except Unit (Option (List CurveRow × Metrics)) :=
  if 0 < df.length then
    match evaluate_sv curve (df.map Trial.sc) (df.map Trial.lab)
        dcf_p_target dcf_c_fn dcf_c_fp with
    | none => .error ()
    | some e =>
      .ok (some (mkRows e.fnrs e.fprs e.thresholds,
        ⟨e.min_cdet, e.min_cdet_threshold, e.eer, e.eer_threshold⟩))
  else .ok none

/-- One enumerated attribute-value combination, in key order
(the `f_item` dict of the source). -/
abbrev FItem := List (String × Val)

/-- Does a row match every attribute value of the combination?
(the conjunction of `k=='{v}'` clauses built by `_subgroup`). -/
def matchesItem (t : Trial) (fi : FItem) : Bool :=
  fi.all (fun kv => t.attr kv.1 == kv.2)

/-- `_subgroup`: filter the table to the rows matching all attribute values
(`df.query` on exact string equality; the source's projection to the
`sc`/`lab`/key columns is immaterial for row records). -/
def subgroup (df : List Trial) (fi : FItem) : List Trial :=
  df.filter (fun t => matchesItem t fi)

/-- `list(df[k].unique()); .sort()`: the sorted distinct values of a column. -/
def columnValues (df : List Trial) (k : String) : List Val :=
  sortStrs (df.map (fun t => t.attr k)).dedup

/-- The `filter_items` enumeration of `sg_fpfnth_metrics`: nested loops over
the first (up to) three attributes' sorted distinct values, the inner loops
guarded by `try/except IndexError` so that a shorter key list degenerates to
a shallower nesting; an empty key list raises (`IndexError` outside any
`try`).  Keys beyond the third are collected into `filter_dict` by the source
but never enumerated. -/
def build_filter_items (df : List Trial) (filter_keys : List String) :
    Option (List FItem) :=
  match filter_keys with
  | [] => none
  | [k0] => some ((columnValues df k0).map (fun v0 => [(k0, v0)]))
  | [k0, k1] =>
    some (((columnValues df k0).map (fun v0 =>
      (columnValues df k1).map (fun v1 => [(k0, v0), (k1, v1)]))).flatten)
  | k0 :: k1 :: k2 :: _ =>
    some (((columnValues df k0).map (fun v0 =>
      ((columnValues df k1).map (fun v1 =>
        (columnValues df k2).map (fun v2 => [(k0, v0), (k1, v1), (k2, v2)]))).flatten)).flatten)

/-- `'_'.flatten([v.replace(" ", "").lower() for v in fi.values()])`. -/
def sg_name (fi : FItem) : Val := joinUnder (fi.map (fun kv => normVal kv.2))

/-- Tag every row of a subgroup's curve table with the combination's
attribute values (`sg_fpfnth[key] = val` for each key). -/
def tagRows (tbl : List CurveRow) (fi : FItem) : List CurveRow :=
  tbl.map (fun r =>
    { r with tags := fi.foldl (fun tg kv => setAssoc tg kv.1 kv.2) r.tags })

/-- One iteration of the subgroup loop: on success append the tagged curve
table and record the metrics under the combination's identifier; any
exception (or the `None` return unpacking) is caught by the bare `except`
and the combination is skipped. -/
def sgStep (curve : Curve) (dcf_p_target dcf_c_fn dcf_c_fp : ℚ) (df : List Trial)
    (acc : List (List CurveRow) × MetricsMap) (fi : FItem) :
    List (List CurveRow) × MetricsMap :=
  match fpfnth_metrics curve (subgroup df fi) dcf_p_target dcf_c_fn dcf_c_fp with
  | .ok (some (tbl, m)) => (acc.1 ++ [tagRows tbl fi], dictSet acc.2 (sg_name fi) m)
  | _ => acc

/-- `sg_fpfnth_metrics`: enumerate the combinations, evaluate each, skip
failures, then `pd.concat` the per-subgroup curve tables — which raises
(`.error ()`) when every combination was skipped, and also when
`filter_keys` is empty. -/
def sg_fpfnth_metrics (curve : Curve) (df : List Trial) (filter_keys : List String)
    (dcf_p_target dcf_c_fn dcf_c_fp : ℚ) :
    Except Unit (List CurveRow × MetricsMap) :=
  match build_filter_items df filter_keys with
  | none => .error ()
  | some items =>
    match items.foldl (sgStep curve dcf_p_target dcf_c_fn dcf_c_fp df) ([], []) with
    | (tbls, metrics) => if tbls.isEmpty then .error () else .ok (tbls.flatten, metrics)

/-- `fpfn_min_threshold`: the `(fpr, fnr)` of the row whose threshold is
nearest the target (`np.ndarray.argmin` of the absolute differences, first
occurrence on ties), optionally passed through the external `ppf`;
`none` when the table is empty (`argmin` raises). -/
def fpfn_min_threshold (df : List CurveRow) (threshold : ℚ) (ppf : ℚ → ℚ)
    (ppf_norm : Bool) : Option (Option ℚ × Option ℚ) :=
  match nanargmin ((df.map (fun r => |r.th - threshold|)).map some) with
  | none => none
  | some (ix, _) =>
    let row := df.getD ix ⟨none, none, 0, []⟩
    if ppf_norm then some (row.fpr.map ppf, row.fnr.map ppf)
    else some (row.fpr, row.fnr)

/-- The curve rows of subgroup `k.split('_')`: normalised `ref_nationality`
column matched against part 0, raw `ref_gender` column against part 1. -/
def sgFilterRows (fpfnth : List CurveRow) (s0 s1 : Val) : List CurveRow :=
  fpfnth.filter (fun r =>
    normVal (r.tag "ref_nationality") == s0 && r.tag "ref_gender" == s1)

/-- `List.mapM` specialised to `Except Unit`, written out so that the source's
`for` loops that let exceptions propagate (first failure aborts the whole
call) can be reasoned about directly. -/
def exMapM (f : α → Except Unit β) : List α → Except Unit (List β)
  | [] => .ok []
  | x :: xs =>
    match f x with
    | .error e => .error e
    | .ok y =>
      match exMapM f xs with
      | .error e => .error e
      | .ok ys => .ok (y :: ys)

/-- The first pass of `cdet_diff` for one subgroup key: split the key,
re-select the subgroup's curve rows, align them to the baseline's min-cost
threshold (no normalisation), and recompute the detection cost
`fpr*c_fp*(1-p) + fnr*c_fn*p` from the aligned pair.  Raises when the key
has fewer than two `'_'`-separated parts (`sg[1]` is an `IndexError`) or
when the selected row set is empty (`argmin` raises). -/
def cdet_row (fpfnth : List CurveRow) (metrics_baseline : Metrics)
    (dcf_p_target dcf_c_fn dcf_c_fp : ℚ) (ppf : ℚ → ℚ) (km : Val × Metrics) :
    Except Unit (Val × Option ℚ × ℚ) :=
  match splitUnder km.1 with
  | s0 :: s1 :: _ =>
    match fpfn_min_threshold (sgFilterRows fpfnth s0 s1)
        metrics_baseline.min_cdet_threshold ppf false with
    | none => .error ()
    | some fo =>
      .ok (km.1,
        oAdd (oMul fo.1 (some (dcf_c_fp * (1 - dcf_p_target))))
          (oMul fo.2 (some (dcf_c_fn * dcf_p_target))),
        km.2.min_cdet)
  | _ => .error ()

/-- One row of the `fpfn_df` dataframe returned by `cdet_diff`. -/
structure CdetRow where
  subgroup : Val
  sg_cdet_overall_min : Option ℚ
  sg_min_cdet : ℚ
  overall_cdet_diff : Option ℚ
  sg_cdet_diff : Option ℚ
deriving DecidableEq, Repr

/-- The second pass of `cdet_diff`: the two ratio columns. -/
def addCdetRatios (metrics_baseline : Metrics) (t : Val × Option ℚ × ℚ) : CdetRow :=
  ⟨t.1, t.2.1, t.2.2,
    t.2.1.map (fun x => x / metrics_baseline.min_cdet),
    t.2.1.map (fun x => t.2.2 / x)⟩

/-- `cdet_diff`. -/
def cdet_diff (fpfnth : List CurveRow) (metrics : MetricsMap)
    (metrics_baseline : Metrics) (dcf_p_target dcf_c_fn dcf_c_fp : ℚ)
    (ppf : ℚ → ℚ) : Except Unit (List CdetRow) :=
  match exMapM (cdet_row fpfnth metrics_baseline dcf_p_target dcf_c_fn dcf_c_fp ppf)
      metrics with
  | .error e => .error e
  | .ok ts => .ok (ts.map (addCdetRatios metrics_baseline))

/-- The first pass of `fpfn_diff` for one subgroup key: the pooled table's
pair at the baseline threshold (recomputed identically every iteration; its
failure, possible only on an empty table, aborts the call), the subgroup's
pair at that threshold and at its own threshold of the chosen kind. -/
def fpfn_row (fpfnth : List CurveRow) (metrics_baseline : Metrics)
    (threshold_type : ThresholdType) (ppf : ℚ → ℚ) (km : Val × Metrics) :
    Except Unit (Val × Option ℚ × Option ℚ × Option ℚ × Option ℚ) :=
  match fpfn_min_threshold fpfnth (metrics_baseline.sel threshold_type) ppf false with
  | none => .error ()
  | some _ =>
    match splitUnder km.1 with
    | s0 :: s1 :: _ =>
      match fpfn_min_threshold (sgFilterRows fpfnth s0 s1)
          (metrics_baseline.sel threshold_type) ppf false with
      | none => .error ()
      | some sgo =>
        match fpfn_min_threshold (sgFilterRows fpfnth s0 s1)
            (km.2.sel threshold_type) ppf false with
        | none => .error ()
        | some sgm => .ok (km.1, sgo.1, sgo.2, sgm.1, sgm.2)
    | _ => .error ()

/-- One row of the `fpfn_df` dataframe returned by `fpfn_diff`. -/
structure FpfnRow where
  subgroup : Val
  overall_fpr : Option ℚ
  overall_fnr : Option ℚ
  sg_fpr : Option ℚ
  sg_fnr : Option ℚ
  overall_fpr_diff : Option ℚ
  overall_fnr_diff : Option ℚ
  sg_fpr_diff : Option ℚ
  sg_fnr_diff : Option ℚ
deriving DecidableEq, Repr

/-- The second pass of `fpfn_diff`: the four ratio columns, dividing by the
pooled pair `ov` (the loop variable `overall_min_cdet` after the loop). -/
def addFpfnRatios (ov : Option ℚ × Option ℚ)
    (t : Val × Option ℚ × Option ℚ × Option ℚ × Option ℚ) : FpfnRow :=
  ⟨t.1, t.2.1, t.2.2.1, t.2.2.2.1, t.2.2.2.2,
    oDivO t.2.1 ov.1, oDivO t.2.2.1 ov.2,
    oDivO t.2.2.2.1 t.2.1, oDivO t.2.2.2.2 t.2.2.1⟩

/-- `fpfn_diff`.  An empty metrics mapping raises (`overall_min_cdet` is
unbound after the loop, a `NameError`); with a non-empty mapping a successful
first pass forces the pooled lookup to succeed, so the last branch is
unreachable. -/
def fpfn_diff (fpfnth : List CurveRow) (metrics : MetricsMap)
    (metrics_baseline : Metrics) (threshold_type : ThresholdType) (ppf : ℚ → ℚ) :
    Except Unit (List FpfnRow) :=
  match metrics with
  | [] => .error ()
  | _ =>
    match exMapM (fpfn_row fpfnth metrics_baseline threshold_type ppf) metrics,
        fpfn_min_threshold fpfnth (metrics_baseline.sel threshold_type) ppf false with
    | .ok rows, some ov => .ok (rows.map (addFpfnRatios ov))
    | _, _ => .error ()

/-- `compare_experiments`.  The loop body `df = v[0]; df[comparison] = k`
assigns the comparison column on the caller's own curve table, so the value
returned is `((compare_fpfnth, compare_metrics), after)` where `after` is
the post-call contents of the caller's input curve tables.  An empty
experiment dict raises at `pd.concat([])`. -/
def compare_experiments (experiment_dict : List (Val × List CurveRow × MetricsMap))
    (comparison : String) :
    Except Unit ((List CurveRow × List (Val × MetricsMap)) × List (List CurveRow)) :=
  let after := experiment_dict.map (fun e =>
    e.2.1.map (fun r => { r with tags := setAssoc r.tags comparison e.1 }))
  match experiment_dict with
  | [] => .error ()
  | _ => .ok ((after.flatten, experiment_dict.map (fun e => (e.1, e.2.2))), after)

/-! ## Claim-statement helpers -/

/-- The post-call contents of the caller's input curve tables, when
`compare_experiments` returned normally. -/
def inputTablesAfter
    (r : Except Unit ((List CurveRow × List (Val × MetricsMap)) × List (List CurveRow))) :
    Option (List (List CurveRow)) :=
  match r with
  | .ok x => some x.2
  | .error _ => none

/-- The compose/decompose round trip of claim C5 for a two-attribute
combination `(n, g)`: compose the stable identifier with `sg_name`,
decompose it with `split('_')`, and check that the re-selection the
differential procedures perform (`sgFilterRows`) returns exactly the rows
tagged with the combination's own attribute values. -/
def roundTripExact (fpfnth : List CurveRow) (n g : Val) : Bool :=
  match splitUnder (sg_name [("ref_nationality", n), ("ref_gender", g)]) with
  | s0 :: s1 :: _ =>
    sgFilterRows fpfnth s0 s1 ==
      fpfnth.filter (fun r =>
        r.tag "ref_nationality" == n && r.tag "ref_gender" == g)
  | _ => false

/-- The combinations of an enumeration that `sg_fpfnth_metrics` does not
skip, together with the curve table and metrics computed for each. -/
def successes (curve : Curve) (dcf_p_target dcf_c_fn dcf_c_fp : ℚ) (df : List Trial)
    (items : List FItem) : List (FItem × List CurveRow × Metrics) :=
  items.filterMap (fun fi =>
    match fpfnth_metrics curve (subgroup df fi) dcf_p_target dcf_c_fn dcf_c_fp with
    | .ok (some (tbl, m)) => some (fi, tbl, m)
    | _ => none)

/-! ## Concrete data used by the closed witness theorems -/

/-- A concrete well-behaved curve capability: a two-sample DET curve with
`fpr` decreasing and `fnr` increasing in the threshold. -/
def wCurve : Curve := fun _ _ => some ([some 1, some 0], [some 0, some 1], [1, 2])

/-- A concrete curve capability that always raises. -/
def wFailCurve : Curve := fun _ _ => none

/-- A concrete input row with one attribute column. -/
def wTrialA : Trial := ⟨0, 1, [("a", ['x'])]⟩

/-- A concrete tagged curve row for subgroup nationality `x`, gender `m`. -/
def wRow1 : CurveRow :=
  ⟨some (1/10), some (1/5), 1, [("ref_nationality", ['x']), ("ref_gender", ['m'])]⟩

/-- A second tagged curve row of the same subgroup at a higher threshold. -/
def wRow2 : CurveRow :=
  ⟨some (3/10), some (2/5), 2, [("ref_nationality", ['x']), ("ref_gender", ['m'])]⟩

/-- Concrete metrics recorded for the subgroup `x_m`. -/
def wM1 : Metrics := ⟨1/10, 1, 20, 1⟩

/-- Concrete baseline (pooled) metrics. -/
def wMb : Metrics := ⟨1/2, 1, 10, 2⟩

/-- A concrete two-row table with two attribute columns. -/
def wDf2 : List Trial :=
  [⟨0, 1, [("a", ['y']), ("b", ['u'])]⟩, ⟨1, 0, [("a", ['x']), ("b", ['v'])]⟩]

/-- The enumeration of `wDf2` over keys `a`, `b`: the nested product of the
sorted distinct values. -/
def wItems2 : List FItem :=
  [[("a", ['x']), ("b", ['u'])],
   [("a", ['x']), ("b", ['v'])],
   [("a", ['y']), ("b", ['u'])],
   [("a", ['y']), ("b", ['v'])]]

/-! ## Lemmas about `nanargmin` -/

theorem nanargmin_eq_none_iff (xs : List (Option ℚ)) :
    nanargmin xs = none ↔ ∀ o ∈ xs, o = none := by
  induction xs with
  | nil => simp [nanargmin]
  | cons x rest ih =>
    cases x with
    | none =>
      simp only [nanargmin, Option.map_eq_none', ih, List.mem_cons]
      constructor
      · rintro h o (rfl | ho)
        · rfl
        · exact h o ho
      · intro h o ho
        exact h o (Or.inr ho)
    | some x =>
      simp only [nanargmin]
      constructor
      · intro h
        cases hr : nanargmin rest with
        | none => rw [hr] at h; exact absurd h (by simp)
        | some p =>
          rw [hr] at h
          obtain ⟨j, b⟩ := p
          by_cases hlt : b < x <;> simp [hlt] at h
      · intro h
        exact absurd (h (some x) (List.mem_cons_self ..)) (by simp)

theorem nanargmin_getElem (xs : List (Option ℚ)) (j : Nat) (v : ℚ)
    (h : nanargmin xs = some (j, v)) : xs[j]? = some (some v) := by
  induction xs generalizing j with
  | nil => simp [nanargmin] at h
  | cons x rest ih =>
    cases x with
    | none =>
      simp only [nanargmin] at h
      cases hr : nanargmin rest with
      | none => rw [hr] at h; simp at h
      | some p =>
        rw [hr] at h
        simp only [Option.map_some', Option.some.injEq, Prod.mk.injEq] at h
        obtain ⟨hj, hv⟩ := h
        subst hj hv
        simpa using ih p.1 hr
    | some x =>
      simp only [nanargmin] at h
      cases hr : nanargmin rest with
      | none =>
        rw [hr] at h
        simp only [Option.some.injEq, Prod.mk.injEq] at h
        obtain ⟨hj, hv⟩ := h
        subst hv
        simp [← hj]
      | some p =>
        obtain ⟨j', b⟩ := p
        rw [hr] at h
        by_cases hlt : b < x
        · simp only [hlt, if_true, Option.some.injEq, Prod.mk.injEq] at h
          obtain ⟨hj, hv⟩ := h
          subst hv
          rw [← hj]
          simpa using ih j' hr
        · simp only [hlt, if_false, Option.some.injEq, Prod.mk.injEq] at h
          obtain ⟨hj, hv⟩ := h
          subst hv
          simp [← hj]

theorem nanargmin_le (xs : List (Option ℚ)) (j : Nat) (v : ℚ)
    (h : nanargmin xs = some (j, v)) :
    ∀ (k : Nat) (w : ℚ), xs[k]? = some (some w) → v ≤ w := by
  induction xs generalizing j v with
  | nil => simp [nanargmin] at h
  | cons x rest ih =>
    intro k w hk
    cases x with
    | none =>
      simp only [nanargmin] at h
      cases hr : nanargmin rest with
      | none => rw [hr] at h; simp at h
      | some p =>
        rw [hr] at h
        simp only [Option.map_some', Option.some.injEq, Prod.mk.injEq] at h
        obtain ⟨hj, hv⟩ := h
        subst hv
        cases k with
        | zero => simp at hk
        | succ k => exact ih p.1 p.2 hr k w (by simpa using hk)
    | some x =>
      simp only [nanargmin] at h
      cases hr : nanargmin rest with
      | none =>
        rw [hr] at h
        simp only [Option.some.injEq, Prod.mk.injEq] at h
        obtain ⟨hj, hv⟩ := h
        subst hv
        cases k with
        | zero =>
          simp only [List.getElem?_cons_zero, Option.some.injEq] at hk
          exact le_of_eq hk
        | succ k =>
          exfalso
          have hall := (nanargmin_eq_none_iff rest).mp hr
          have : (some w : Option ℚ) ∈ rest := by
            have hk' : rest[k]? = some (some w) := by simpa using hk
            obtain ⟨hlt, he⟩ := List.getElem?_eq_some_iff.mp hk'
            rw [← he]
            exact List.getElem_mem hlt
          exact absurd (hall _ this) (by simp)
      | some p =>
        obtain ⟨j', b⟩ := p
        rw [hr] at h
        by_cases hlt : b < x
        · simp only [hlt, if_true, Option.some.injEq, Prod.mk.injEq] at h
          obtain ⟨hj, hv⟩ := h
          subst hv
          cases k with
          | zero =>
            simp only [List.getElem?_cons_zero, Option.some.injEq] at hk
            rw [← hk]
            exact le_of_lt hlt
          | succ k => exact ih j' b hr k w (by simpa using hk)
        · simp only [hlt, if_false, Option.some.injEq, Prod.mk.injEq] at h
          obtain ⟨hj, hv⟩ := h
          subst hv
          cases k with
          | zero =>
            simp only [List.getElem?_cons_zero, Option.some.injEq] at hk
            exact le_of_eq hk
          | succ k =>
            have hbw := ih j' b hr k w (by simpa using hk)
            exact le_trans (not_lt.mp hlt) hbw

theorem nanargmin_first (xs : List (Option ℚ)) (j : Nat) (v : ℚ)
    (h : nanargmin xs = some (j, v)) :
    ∀ k : Nat, k < j → ∀ w : ℚ, xs[k]? = some (some w) → v < w := by
  induction xs generalizing j v with
  | nil => simp [nanargmin] at h
  | cons x rest ih =>
    intro k hkj w hk
    cases x with
    | none =>
      simp only [nanargmin] at h
      cases hr : nanargmin rest with
      | none => rw [hr] at h; simp at h
      | some p =>
        rw [hr] at h
        simp only [Option.map_some', Option.some.injEq, Prod.mk.injEq] at h
        obtain ⟨hj, hv⟩ := h
        subst hv
        cases k with
        | zero => simp at hk
        | succ k =>
          refine ih p.1 p.2 hr k ?_ w (by simpa using hk)
          omega
    | some x =>
      simp only [nanargmin] at h
      cases hr : nanargmin rest with
      | none =>
        rw [hr] at h
        simp only [Option.some.injEq, Prod.mk.injEq] at h
        obtain ⟨hj, hv⟩ := h
        subst hv
        omega
      | some p =>
        obtain ⟨j', b⟩ := p
        rw [hr] at h
        by_cases hlt : b < x
        · simp only [hlt, if_true, Option.some.injEq, Prod.mk.injEq] at h
          obtain ⟨hj, hv⟩ := h
          subst hv
          cases k with
          | zero =>
            simp only [List.getElem?_cons_zero, Option.some.injEq] at hk
            rw [← hk]
            exact hlt
          | succ k =>
            refine ih j' b hr k ?_ w (by simpa using hk)
            omega
        · simp only [hlt, if_false, Option.some.injEq, Prod.mk.injEq] at h
          obtain ⟨hj, hv⟩ := h
          subst hv
          omega

theorem nanargmin_isSome (xs : List (Option ℚ)) (k : Nat) (w : ℚ)
    (h : xs[k]? = some (some w)) : ∃ j v, nanargmin xs = some (j, v) := by
  cases hr : nanargmin xs with
  | none =>
    exfalso
    have hall := (nanargmin_eq_none_iff xs).mp hr
    have hmem : (some w : Option ℚ) ∈ xs := by
      obtain ⟨hlt, he⟩ := List.getElem?_eq_some_iff.mp h
      rw [← he]
      exact List.getElem_mem hlt
    exact absurd (hall _ hmem) (by simp)
  | some p => exact ⟨p.1, p.2, rfl⟩

/-! ## Index-transfer helpers -/

theorem zipWith_getElem?_eq_some {α β γ : Type} {f : α → β → γ} {as : List α}
    {bs : List β} {i : Nat} {c : γ} :
    (List.zipWith f as bs)[i]? = some c ↔
      ∃ a b, as[i]? = some a ∧ bs[i]? = some b ∧ f a b = c := by
  rw [List.getElem?_zipWith]
  cases ha : as[i]? <;> cases hb : bs[i]? <;> simp

theorem map_getElem?_eq_some {α β : Type} {f : α → β} {l : List α} {i : Nat} {c : β} :
    (l.map f)[i]? = some c ↔ ∃ a, l[i]? = some a ∧ f a = c := by
  rw [List.getElem?_map]
  cases ha : l[i]? <;> simp

theorem getD_of_getElem? {α : Type} {l : List α} {i : Nat} {a d : α}
    (h : l[i]? = some a) : l.getD i d = a := by
  rw [List.getD_eq_getElem?_getD, h]
  rfl

theorem mem_of_getElem?_some {α : Type} {l : List α} {i : Nat} {a : α}
    (h : l[i]? = some a) : a ∈ l := by
  obtain ⟨hlt, he⟩ := List.getElem?_eq_some_iff.mp h
  rw [← he]
  exact List.getElem_mem hlt

theorem getElem?_some_of_mem {α : Type} {l : List α} {a : α} (h : a ∈ l) :
    ∃ i : Nat, l[i]? = some a := by
  obtain ⟨i, hi, rfl⟩ := List.getElem_of_mem h
  exact ⟨i, List.getElem?_eq_getElem hi⟩

/-- Index transfer between a curve table and its vector of absolute
threshold differences. -/
theorem alignIndex_getElem {df : List CurveRow} {t : ℚ} {j : Nat} {w : ℚ} :
    ((df.map (fun r => |r.th - t|)).map some)[j]? = some (some w) ↔
      ∃ row, df[j]? = some row ∧ |row.th - t| = w := by
  rw [List.getElem?_map, List.getElem?_map]
  cases h : df[j]? <;> simp

theorem oAdd_comm (x y : Option ℚ) : oAdd x y = oAdd y x := by
  cases x <;> cases y <;> simp [oAdd, add_comm]

theorem exMapM_ok_length {α β : Type} (f : α → Except Unit β) (l : List α)
    (ys : List β) (h : exMapM f l = .ok ys) : ys.length = l.length := by
  induction l generalizing ys with
  | nil =>
    simp only [exMapM, Except.ok.injEq] at h
    simp [← h]
  | cons a rest ih =>
    simp only [exMapM] at h
    cases hf : f a with
    | error e => rw [hf] at h; simp at h
    | ok y =>
      rw [hf] at h
      cases hr : exMapM f rest with
      | error e => rw [hr] at h; simp at h
      | ok ys' =>
        rw [hr] at h
        simp only [Except.ok.injEq] at h
        subst h
        simp [ih ys' hr]

theorem exMapM_ok_getElem {α β : Type} (f : α → Except Unit β) (l : List α)
    (ys : List β) (h : exMapM f l = .ok ys) (i : Nat) (x : α)
    (hx : l[i]? = some x) : ∃ y, ys[i]? = some y ∧ f x = .ok y := by
  induction l generalizing ys i with
  | nil => simp at hx
  | cons a rest ih =>
    simp only [exMapM] at h
    cases hf : f a with
    | error e => rw [hf] at h; simp at h
    | ok y =>
      rw [hf] at h
      cases hr : exMapM f rest with
      | error e => rw [hr] at h; simp at h
      | ok ys' =>
        rw [hr] at h
        simp only [Except.ok.injEq] at h
        subst h
        cases i with
        | zero =>
          simp only [List.getElem?_cons_zero, Option.some.injEq] at hx
          subst hx
          exact ⟨y, by simp, hf⟩
        | succ i =>
          obtain ⟨y', hy', hfy'⟩ := ih ys' hr i (by simpa using hx)
          exact ⟨y', by simpa using hy', hfy'⟩

/-! ## Claim C3 -/

/-- C3, counterexample.  The claim says samples whose cost is `NaN` are
"never selected and never cause a failure", for every error curve.  On the
one-sample curve with `fnr = NaN`, `fpr = 0`, `threshold = 0` the whole cost
vector is `NaN` and `np.nanargmin` raises `ValueError` — the procedure fails
instead of returning a `(min_cost, threshold)` pair. -/
theorem C3_counterexample :
    compute_min_cdet [none] [some 0] [0] (1/20) 1 1 = none := by decide

/-- C3 (amended): provided at least one sampled cost is non-`NaN`,
`_compute_min_cdet` returns a pair `(min_cost, threshold)` where `min_cost`
is the cost at the first index attaining the minimum over the non-`NaN`
sampled costs (so a `NaN` cost is never selected, ties resolve to the first
sample in threshold order), `min_cost` is ≤ the cost at every sampled
threshold whose cost is non-`NaN`, and `threshold` is the selected sample's
threshold. -/
theorem C3_min_cdet_spec (fnrs fprs : List (Option ℚ)) (thresholds : List ℚ)
    (p cfn cfp : ℚ)
    (hl : fprs.length = fnrs.length) (hl2 : fnrs.length = thresholds.length)
    (hfin : ∃ j : Nat, ∃ v : ℚ, (cdetList fnrs fprs p cfn cfp)[j]? = some (some v)) :
    ∃ mc th ix,
      compute_min_cdet fnrs fprs thresholds p cfn cfp = some (mc, th) ∧
      (cdetList fnrs fprs p cfn cfp)[ix]? = some (some mc) ∧
      thresholds[ix]? = some th ∧
      (∀ (j : Nat) (w : ℚ),
        (cdetList fnrs fprs p cfn cfp)[j]? = some (some w) → mc ≤ w) ∧
      (∀ j : Nat, j < ix → ∀ w : ℚ,
        (cdetList fnrs fprs p cfn cfp)[j]? = some (some w) → mc < w) := by
  obtain ⟨j0, v0, hj0⟩ := hfin
  obtain ⟨ix, mc, hmin⟩ := nanargmin_isSome _ j0 v0 hj0
  have hmem := nanargmin_getElem _ _ _ hmin
  have hixcd : ix < (cdetList fnrs fprs p cfn cfp).length :=
    (List.getElem?_eq_some_iff.mp hmem).1
  have hcdlen : (cdetList fnrs fprs p cfn cfp).length = thresholds.length := by
    simp [cdetList, hl, hl2]
  have hixlen : ix < thresholds.length := hcdlen ▸ hixcd
  have hth : thresholds[ix]? = some thresholds[ix] := List.getElem?_eq_getElem hixlen
  have hgd : thresholds.getD ix 0 = thresholds[ix] := getD_of_getElem? hth
  refine ⟨mc, thresholds.getD ix 0, ix, ?_, hmem, ?_, nanargmin_le _ _ _ hmin,
    nanargmin_first _ _ _ hmin⟩
  · simp [compute_min_cdet, hmin]
  · rw [hgd]
    exact hth

/-- C3, witness: a two-sample curve whose first cost is `NaN`; the second
(finite) sample is selected. -/
theorem C3_witness :
    ∃ mc th ix,
      compute_min_cdet [none, some (1/10)] [some 0, some (1/10)] [1, 2] (1/20) 1 1 =
        some (mc, th) ∧
      (cdetList [none, some (1/10)] [some 0, some (1/10)] (1/20) 1 1)[ix]? =
        some (some mc) ∧
      ([1, 2] : List ℚ)[ix]? = some th ∧
      (∀ (j : Nat) (w : ℚ),
        (cdetList [none, some (1/10)] [some 0, some (1/10)] (1/20) 1 1)[j]? =
          some (some w) → mc ≤ w) ∧
      (∀ j : Nat, j < ix → ∀ w : ℚ,
        (cdetList [none, some (1/10)] [some 0, some (1/10)] (1/20) 1 1)[j]? =
          some (some w) → mc < w) :=
  C3_min_cdet_spec [none, some (1/10)] [some 0, some (1/10)] [1, 2] (1/20) 1 1
    (by decide) (by decide) ⟨1, 1/10, by norm_num [cdetList, oAdd, oMul]⟩

/-! ## Claim C8 -/

/-- C8: for every error curve on which `_evaluate_sv` reaches the EER step
(the min-cost step succeeds and at least one `|fnr - fpr|` is non-`NaN`),
the procedure selects the sample minimizing `|fnr - fpr|` (`NaN` values
ignored, first-in-order tie-break), returns `eer = max(fpr, fnr) * 100` at
that sample — a value in `[0, 100]` when the curve's rates lie in `[0, 1]` —
together with that sample's threshold. -/
theorem C8_eer_spec (curve : Curve) (sc : List ℚ) (lab : List Nat)
    (p cfn cfp : ℚ) (fprs fnrs : List (Option ℚ)) (thresholds : List ℚ)
    (hc : curve sc lab = some (fprs, fnrs, thresholds))
    (hl2 : fnrs.length = thresholds.length)
    (hmc : (compute_min_cdet fnrs fprs thresholds p cfn cfp).isSome = true)
    (hfin : ∃ j : Nat, ∃ v : ℚ, (eerDiffList fnrs fprs)[j]? = some (some v))
    (hr1 : ∀ o ∈ fprs, ∀ q : ℚ, o = some q → 0 ≤ q ∧ q ≤ 1)
    (hr2 : ∀ o ∈ fnrs, ∀ q : ℚ, o = some q → 0 ≤ q ∧ q ≤ 1) :
    ∃ r ix a b d,
      evaluate_sv curve sc lab p cfn cfp = some r ∧
      (eerDiffList fnrs fprs)[ix]? = some (some d) ∧
      (∀ (j : Nat) (w : ℚ), (eerDiffList fnrs fprs)[j]? = some (some w) → d ≤ w) ∧
      (∀ j : Nat, j < ix → ∀ w : ℚ,
        (eerDiffList fnrs fprs)[j]? = some (some w) → d < w) ∧
      fprs[ix]? = some (some a) ∧ fnrs[ix]? = some (some b) ∧
      r.eer = max a b * 100 ∧ thresholds[ix]? = some r.eer_threshold ∧
      0 ≤ r.eer ∧ r.eer ≤ 100 := by
  obtain ⟨j0, v0, hj0⟩ := hfin
  obtain ⟨ix, d, hmin⟩ := nanargmin_isSome _ j0 v0 hj0
  have hmem := nanargmin_getElem _ _ _ hmin
  obtain ⟨fe, pe, hfe, hpe, hg⟩ := zipWith_getElem?_eq_some.mp hmem
  cases fe with
  | none => exact absurd hg (by simp [oSub, oAbs])
  | some b =>
    cases pe with
    | none => exact absurd hg (by simp [oSub, oAbs])
    | some a =>
      obtain ⟨mcp, hmcp⟩ := Option.isSome_iff_exists.mp hmc
      obtain ⟨mc, mct⟩ := mcp
      have hixlen : ix < thresholds.length := by
        have := (List.getElem?_eq_some_iff.mp hfe).1
        omega
      have hth : thresholds[ix]? = some thresholds[ix] :=
        List.getElem?_eq_getElem hixlen
      have hgd : thresholds.getD ix 0 = thresholds[ix] := getD_of_getElem? hth
      have ha := hr1 (some a) (mem_of_getElem?_some hpe) a rfl
      have hb := hr2 (some b) (mem_of_getElem?_some hfe) b rfl
      have hmax0 : 0 ≤ max a b := le_trans ha.1 (le_max_left a b)
      have hmax1 : max a b ≤ 1 := max_le ha.2 hb.2
      refine ⟨⟨fnrs, fprs, thresholds, mc, mct,
          ((oMax (fprs.getD ix none) (fnrs.getD ix none)).getD 0) * 100,
          thresholds.getD ix 0⟩, ix, a, b, d, ?_, hmem, nanargmin_le _ _ _ hmin,
        nanargmin_first _ _ _ hmin, hpe, hfe, ?_, ?_, ?_, ?_⟩
      · simp only [evaluate_sv, hc, hmcp, hmin]
      · simp [List.getD_eq_getElem?_getD, hpe, hfe, oMax]
      · simp only [hgd]
        exact hth
      · simp only [List.getD_eq_getElem?_getD, hpe, hfe, Option.getD_some, oMax]
        exact mul_nonneg hmax0 (by norm_num)
      · simp only [List.getD_eq_getElem?_getD, hpe, hfe, Option.getD_some, oMax]
        have h100 := mul_le_mul_of_nonneg_right hmax1 (by norm_num : (0:ℚ) ≤ 100)
        simpa using h100

/-- C8, witness: the concrete two-sample curve `wCurve`, with a cost tie
exercising the first-in-order tie-break. -/
theorem C8_witness :
    ∃ r ix a b d,
      evaluate_sv wCurve [0] [1] (1/2) 2 2 = some r ∧
      (eerDiffList [some 0, some 1] [some 1, some 0])[ix]? = some (some d) ∧
      (∀ (j : Nat) (w : ℚ),
        (eerDiffList [some 0, some 1] [some 1, some 0])[j]? = some (some w) → d ≤ w) ∧
      (∀ j : Nat, j < ix → ∀ w : ℚ,
        (eerDiffList [some 0, some 1] [some 1, some 0])[j]? = some (some w) → d < w) ∧
      ([some 1, some 0] : List (Option ℚ))[ix]? = some (some a) ∧
      ([some 0, some 1] : List (Option ℚ))[ix]? = some (some b) ∧
      r.eer = max a b * 100 ∧ ([1, 2] : List ℚ)[ix]? = some r.eer_threshold ∧
      0 ≤ r.eer ∧ r.eer ≤ 100 :=
  C8_eer_spec wCurve [0] [1] (1/2) 2 2 [some 1, some 0] [some 0, some 1] [1, 2]
    rfl (by decide)
    (by norm_num [compute_min_cdet, cdetList, nanargmin, oAdd, oMul])
    ⟨0, 1, by norm_num [eerDiffList, oSub, oAbs]⟩
    (by intro o ho q hq; fin_cases ho <;> simp_all <;> subst hq <;> norm_num)
    (by intro o ho q hq; fin_cases ho <;> simp_all <;> subst hq <;> norm_num)

/-! ## Claim C4 -/

/-- C4: for every non-empty curve table and target threshold,
`fpfn_min_threshold` returns the `(fpr, fnr)` of the row whose threshold has
the smallest absolute distance to the target (first occurrence on ties);
when the target equals an existing row's threshold the returned row's
threshold equals the target exactly; when normalisation is requested both
rates are passed through the inverse-normal transform `ppf`. -/
theorem C4_aligner (df : List CurveRow) (t : ℚ) (ppf : ℚ → ℚ) (ppf_norm : Bool)
    (hne : df ≠ []) :
    ∃ ix row,
      df[ix]? = some row ∧
      (∀ (j : Nat) (r : CurveRow), df[j]? = some r → |row.th - t| ≤ |r.th - t|) ∧
      (∀ j : Nat, j < ix → ∀ r : CurveRow,
        df[j]? = some r → |row.th - t| < |r.th - t|) ∧
      fpfn_min_threshold df t ppf ppf_norm =
        some (if ppf_norm then (row.fpr.map ppf, row.fnr.map ppf)
          else (row.fpr, row.fnr)) ∧
      ((∃ r ∈ df, r.th = t) → row.th = t) := by
  have h0 : ∃ r0, df[0]? = some r0 := by
    cases df with
    | nil => exact absurd rfl hne
    | cons r0 rest => exact ⟨r0, by simp⟩
  obtain ⟨r0, hr0⟩ := h0
  have hx0 : ((df.map (fun r => |r.th - t|)).map some)[0]? = some (some |r0.th - t|) :=
    alignIndex_getElem.mpr ⟨r0, hr0, rfl⟩
  obtain ⟨ix, v, hmin⟩ := nanargmin_isSome _ 0 _ hx0
  have hmem := nanargmin_getElem _ _ _ hmin
  obtain ⟨row, hrow, hfval⟩ := alignIndex_getElem.mp hmem
  have hle : ∀ (j : Nat) (r : CurveRow), df[j]? = some r → |row.th - t| ≤ |r.th - t| := by
    intro j r hj
    rw [hfval]
    exact nanargmin_le _ _ _ hmin j _ (alignIndex_getElem.mpr ⟨r, hj, rfl⟩)
  refine ⟨ix, row, hrow, hle, ?_, ?_, ?_⟩
  · intro j hj r hjr
    rw [hfval]
    exact nanargmin_first _ _ _ hmin j hj _ (alignIndex_getElem.mpr ⟨r, hjr, rfl⟩)
  · have hgd : df.getD ix ⟨none, none, 0, []⟩ = row := getD_of_getElem? hrow
    cases ppf_norm <;> simp [fpfn_min_threshold, hmin, hgd, hrow, -List.map_map]
  · rintro ⟨r, hrmem, hrth⟩
    obtain ⟨jr, hjr⟩ := getElem?_some_of_mem hrmem
    have h1 : |row.th - t| ≤ |r.th - t| := hle jr r hjr
    rw [hrth] at h1
    simp only [sub_self, abs_zero] at h1
    have h2 : (0:ℚ) ≤ |row.th - t| := abs_nonneg _
    have h3 : |row.th - t| = 0 := le_antisymm h1 h2
    have h4 : row.th - t = 0 := abs_eq_zero.mp h3
    linarith

/-- C4, witness: the target `2` equals the second row's threshold exactly,
with normalisation requested. -/
theorem C4_witness :
    ∃ ix row,
      ([wRow1, wRow2] : List CurveRow)[ix]? = some row ∧
      (∀ (j : Nat) (r : CurveRow),
        ([wRow1, wRow2] : List CurveRow)[j]? = some r →
          |row.th - 2| ≤ |r.th - 2|) ∧
      (∀ j : Nat, j < ix → ∀ r : CurveRow,
        ([wRow1, wRow2] : List CurveRow)[j]? = some r →
          |row.th - 2| < |r.th - 2|) ∧
      fpfn_min_threshold [wRow1, wRow2] 2 (fun q => q + 3) true =
        some (if true then (row.fpr.map (fun q => q + 3), row.fnr.map (fun q => q + 3))
          else (row.fpr, row.fnr)) ∧
      ((∃ r ∈ ([wRow1, wRow2] : List CurveRow), r.th = 2) → row.th = 2) :=
  C4_aligner [wRow1, wRow2] 2 (fun q => q + 3) true (List.cons_ne_nil _ _)

/-! ## Claim C1 -/

/-- C1: for every subgroup key in the metrics mapping (on a normal return of
`cdet_diff`), the output row for that key aligns the key's re-selected curve
rows to the baseline's min-cost threshold without normalisation
(`ppf_norm = false`), recomputes `cost = fnr*c_fn*p_target +
fpr*c_fp*(1-p_target)` from the aligned `(fpr, fnr)` — `fo.1` is the aligned
`fpr`, `fo.2` the aligned `fnr` — and reports
`overall_cdet_diff = sg_cost_at_overall_threshold / baseline.min_cost` and
`sg_cdet_diff = sg_min_cost / sg_cost_at_overall_threshold`. -/
theorem C1_cdet_diff (fpfnth : List CurveRow) (metrics : MetricsMap)
    (mb : Metrics) (p cfn cfp : ℚ) (ppf : ℚ → ℚ) (out : List CdetRow)
    (hok : cdet_diff fpfnth metrics mb p cfn cfp ppf = .ok out) :
    out.length = metrics.length ∧
    ∀ (i : Nat) (km : Val × Metrics), metrics[i]? = some km →
      ∃ row s0 s1 rest fo,
        out[i]? = some row ∧
        splitUnder km.1 = s0 :: s1 :: rest ∧
        fpfn_min_threshold (sgFilterRows fpfnth s0 s1)
          mb.min_cdet_threshold ppf false = some fo ∧
        row.subgroup = km.1 ∧
        row.sg_cdet_overall_min =
          oAdd (oMul fo.2 (some (cfn * p))) (oMul fo.1 (some (cfp * (1 - p)))) ∧
        row.sg_min_cdet = km.2.min_cdet ∧
        row.overall_cdet_diff =
          row.sg_cdet_overall_min.map (fun x => x / mb.min_cdet) ∧
        row.sg_cdet_diff =
          row.sg_cdet_overall_min.map (fun x => km.2.min_cdet / x) := by
  simp only [cdet_diff] at hok
  cases hm : exMapM (cdet_row fpfnth mb p cfn cfp ppf) metrics with
  | error e => rw [hm] at hok; simp at hok
  | ok ts =>
    rw [hm] at hok
    simp only [Except.ok.injEq] at hok
    subst hok
    refine ⟨by simp [exMapM_ok_length _ _ _ hm], ?_⟩
    intro i km hkm
    obtain ⟨tr, htr, hg⟩ := exMapM_ok_getElem _ _ _ hm i km hkm
    rcases hsp : splitUnder km.1 with _ | ⟨s0, _ | ⟨s1, tl⟩⟩
    · simp [cdet_row, hsp] at hg
    · simp [cdet_row, hsp] at hg
    · simp only [cdet_row, hsp] at hg
      cases hfo : fpfn_min_threshold (sgFilterRows fpfnth s0 s1)
          mb.min_cdet_threshold ppf false with
      | none => rw [hfo] at hg; simp at hg
      | some fo =>
        rw [hfo] at hg
        simp only [Except.ok.injEq] at hg
        rw [← hg] at htr
        refine ⟨addCdetRatios mb (km.1,
            oAdd (oMul fo.1 (some (cfp * (1 - p)))) (oMul fo.2 (some (cfn * p))),
            km.2.min_cdet), s0, s1, tl, fo, ?_, rfl, hfo, ?_, ?_, ?_, ?_, ?_⟩
        · rw [List.getElem?_map, htr]
          rfl
        · rfl
        · exact oAdd_comm _ _
        · rfl
        · rfl
        · rfl

/-- C1, witness: one subgroup `x_m` with two curve rows; the baseline
min-cost threshold `1` selects the first row, giving
`sg_cost = 1/5*1*(19/20) + 1/10*1*(1/20) = 39/200`,
`overall_cdet_diff = (39/200)/(1/2) = 39/100` and
`sg_cdet_diff = (1/10)/(39/200) = 20/39`. -/
theorem C1_witness :
    ([⟨['x','_','m'], some (39/200), 1/10, some (39/100), some (20/39)⟩] :
        List CdetRow).length = ([(['x','_','m'], wM1)] : MetricsMap).length ∧
    ∀ (i : Nat) (km : Val × Metrics),
      ([(['x','_','m'], wM1)] : MetricsMap)[i]? = some km →
      ∃ row s0 s1 rest fo,
        ([⟨['x','_','m'], some (39/200), 1/10, some (39/100), some (20/39)⟩] :
          List CdetRow)[i]? = some row ∧
        splitUnder km.1 = s0 :: s1 :: rest ∧
        fpfn_min_threshold (sgFilterRows [wRow1, wRow2] s0 s1)
          wMb.min_cdet_threshold id false = some fo ∧
        row.subgroup = km.1 ∧
        row.sg_cdet_overall_min =
          oAdd (oMul fo.2 (some (1 * (1/20)))) (oMul fo.1 (some (1 * (1 - 1/20)))) ∧
        row.sg_min_cdet = km.2.min_cdet ∧
        row.overall_cdet_diff =
          row.sg_cdet_overall_min.map (fun x => x / wMb.min_cdet) ∧
        row.sg_cdet_diff =
          row.sg_cdet_overall_min.map (fun x => km.2.min_cdet / x) :=
  C1_cdet_diff [wRow1, wRow2] [(['x','_','m'], wM1)] wMb (1/20) 1 1 id
    [⟨['x','_','m'], some (39/200), 1/10, some (39/100), some (20/39)⟩] (by
      have hsp : splitUnder ['x','_','m'] = [['x'],['m']] := by decide
      have hf1 : (normVal (CurveRow.tag wRow1 "ref_nationality") == ['x'] &&
          CurveRow.tag wRow1 "ref_gender" == ['m']) = true := by decide
      have hf2 : (normVal (CurveRow.tag wRow2 "ref_nationality") == ['x'] &&
          CurveRow.tag wRow2 "ref_gender" == ['m']) = true := by decide
      have ht1 : wRow1.th = 1 := rfl
      have ht2 : wRow2.th = 2 := rfl
      have hp1 : wRow1.fpr = some (1/5) := rfl
      have hn1 : wRow1.fnr = some (1/10) := rfl
      simp only [cdet_diff, exMapM, cdet_row, hsp, sgFilterRows, List.filter_cons,
        List.filter_nil, hf1, hf2, if_true]
      norm_num [fpfn_min_threshold, nanargmin, ht1, ht2, hp1, hn1, oAdd, oMul,
        addCdetRatios, wM1, wMb, List.getD])

/-! ## Claim C2 -/

/-- C2: for every subgroup key and chosen threshold field (on a normal
return of `fpfn_diff`), the output row holds the subgroup's `(fpr, fnr)` at
the pooled threshold (`sgo`), the subgroup's `(fpr, fnr)` at its own
threshold of the same kind (`sgm`), and exactly four ratios: the
subgroup-at-pooled rates divided by the pooled table's own rates at that
threshold (`ov`), and the subgroup-at-own rates divided by the
subgroup-at-pooled rates. -/
theorem C2_fpfn_diff (fpfnth : List CurveRow) (metrics : MetricsMap)
    (mb : Metrics) (tt : ThresholdType) (ppf : ℚ → ℚ) (out : List FpfnRow)
    (hok : fpfn_diff fpfnth metrics mb tt ppf = .ok out) :
    ∃ ov, fpfn_min_threshold fpfnth (mb.sel tt) ppf false = some ov ∧
    out.length = metrics.length ∧
    ∀ (i : Nat) (km : Val × Metrics), metrics[i]? = some km →
      ∃ row s0 s1 rest sgo sgm,
        out[i]? = some row ∧
        splitUnder km.1 = s0 :: s1 :: rest ∧
        fpfn_min_threshold (sgFilterRows fpfnth s0 s1) (mb.sel tt) ppf false =
          some sgo ∧
        fpfn_min_threshold (sgFilterRows fpfnth s0 s1) (km.2.sel tt) ppf false =
          some sgm ∧
        row = ⟨km.1, sgo.1, sgo.2, sgm.1, sgm.2,
          oDivO sgo.1 ov.1, oDivO sgo.2 ov.2,
          oDivO sgm.1 sgo.1, oDivO sgm.2 sgo.2⟩ := by
  cases metrics with
  | nil => simp [fpfn_diff] at hok
  | cons m0 mrest =>
    simp only [fpfn_diff] at hok
    cases hm : exMapM (fpfn_row fpfnth mb tt ppf) (m0 :: mrest) with
    | error e => rw [hm] at hok; simp at hok
    | ok rows =>
      rw [hm] at hok
      cases hov : fpfn_min_threshold fpfnth (mb.sel tt) ppf false with
      | none => rw [hov] at hok; simp at hok
      | some ov =>
        rw [hov] at hok
        simp only [Except.ok.injEq] at hok
        subst hok
        refine ⟨ov, rfl, by simp [exMapM_ok_length _ _ _ hm], ?_⟩
        intro i km hkm
        obtain ⟨tr, htr, hg⟩ := exMapM_ok_getElem _ _ _ hm i km hkm
        simp only [fpfn_row, hov] at hg
        rcases hsp : splitUnder km.1 with _ | ⟨s0, _ | ⟨s1, tl⟩⟩
        · simp [hsp] at hg
        · simp [hsp] at hg
        · simp only [hsp] at hg
          cases hsgo : fpfn_min_threshold (sgFilterRows fpfnth s0 s1)
              (mb.sel tt) ppf false with
          | none => rw [hsgo] at hg; simp at hg
          | some sgo =>
            rw [hsgo] at hg
            cases hsgm : fpfn_min_threshold (sgFilterRows fpfnth s0 s1)
                (km.2.sel tt) ppf false with
            | none => rw [hsgm] at hg; simp at hg
            | some sgm =>
              rw [hsgm] at hg
              simp only [Except.ok.injEq] at hg
              rw [← hg] at htr
              refine ⟨addFpfnRatios ov (km.1, sgo.1, sgo.2, sgm.1, sgm.2),
                s0, s1, tl, sgo, sgm, ?_, rfl, hsgo, hsgm, rfl⟩
              rw [List.getElem?_map, htr]
              rfl

/-- C2, witness: the `x_m` subgroup of the concrete two-row table at the
baseline min-cost threshold; the pooled table and the subgroup table
coincide, so all four ratios are `1`. -/
theorem C2_witness :
    ∃ ov, fpfn_min_threshold [wRow1, wRow2]
        (wMb.sel ThresholdType.min_cdet_threshold) id false = some ov ∧
    ([⟨['x','_','m'], some (1/5), some (1/10), some (1/5), some (1/10),
        some 1, some 1, some 1, some 1⟩] : List FpfnRow).length =
      ([(['x','_','m'], wM1)] : MetricsMap).length ∧
    ∀ (i : Nat) (km : Val × Metrics),
      ([(['x','_','m'], wM1)] : MetricsMap)[i]? = some km →
      ∃ row s0 s1 rest sgo sgm,
        ([⟨['x','_','m'], some (1/5), some (1/10), some (1/5), some (1/10),
          some 1, some 1, some 1, some 1⟩] : List FpfnRow)[i]? = some row ∧
        splitUnder km.1 = s0 :: s1 :: rest ∧
        fpfn_min_threshold (sgFilterRows [wRow1, wRow2] s0 s1)
          (wMb.sel ThresholdType.min_cdet_threshold) id false = some sgo ∧
        fpfn_min_threshold (sgFilterRows [wRow1, wRow2] s0 s1)
          (km.2.sel ThresholdType.min_cdet_threshold) id false = some sgm ∧
        row = ⟨km.1, sgo.1, sgo.2, sgm.1, sgm.2,
          oDivO sgo.1 ov.1, oDivO sgo.2 ov.2,
          oDivO sgm.1 sgo.1, oDivO sgm.2 sgo.2⟩ :=
  C2_fpfn_diff [wRow1, wRow2] [(['x','_','m'], wM1)] wMb
    ThresholdType.min_cdet_threshold id
    [⟨['x','_','m'], some (1/5), some (1/10), some (1/5), some (1/10),
      some 1, some 1, some 1, some 1⟩] (by
      have hsp : splitUnder ['x','_','m'] = [['x'],['m']] := by decide
      have hf1 : (normVal (CurveRow.tag wRow1 "ref_nationality") == ['x'] &&
          CurveRow.tag wRow1 "ref_gender" == ['m']) = true := by decide
      have hf2 : (normVal (CurveRow.tag wRow2 "ref_nationality") == ['x'] &&
          CurveRow.tag wRow2 "ref_gender" == ['m']) = true := by decide
      have ht1 : wRow1.th = 1 := rfl
      have ht2 : wRow2.th = 2 := rfl
      have hp1 : wRow1.fpr = some (1/5) := rfl
      have hn1 : wRow1.fnr = some (1/10) := rfl
      simp only [fpfn_diff, exMapM, fpfn_row, hsp, sgFilterRows, List.filter_cons,
        List.filter_nil, hf1, hf2, if_true]
      norm_num [fpfn_min_threshold, nanargmin, Metrics.sel, ht1, ht2, hp1, hn1,
        addFpfnRatios, oDivO, wM1, wMb, List.getD])

/-! ## Claim C5 -/

theorem splitUnder_of_not_mem (a : Val) (h : '_' ∉ a) : splitUnder a = [a] := by
  induction a with
  | nil => rfl
  | cons c cs ih =>
    have hc : c ≠ '_' := fun hc => h (hc ▸ List.mem_cons_self ..)
    have hcs : '_' ∉ cs := fun hm => h (List.mem_cons_of_mem _ hm)
    simp only [splitUnder, if_neg hc, ih hcs]

theorem splitUnder_append (a b : Val) (h : '_' ∉ a) :
    splitUnder (a ++ '_' :: b) = a :: splitUnder b := by
  induction a with
  | nil => simp [splitUnder]
  | cons c cs ih =>
    have hc : c ≠ '_' := fun hc => h (hc ▸ List.mem_cons_self ..)
    have hcs : '_' ∉ cs := fun hm => h (List.mem_cons_of_mem _ hm)
    simp only [List.cons_append, splitUnder, if_neg hc, List.append_eq, ih hcs]

/-- C5, counterexample.  The combination nationality `in`, gender `M` (an
uppercase value) composes to the identifier `in_m`; decomposing and
re-selecting compares the raw `ref_gender` column against the lowercased
part `m`, so the re-selection returns no rows instead of the subgroup's
row — the round trip is not lossless. -/
theorem C5_counterexample :
    roundTripExact [⟨some 0, some 0, 0,
      [("ref_nationality", ['i','n']), ("ref_gender", ['M'])]⟩]
      ['i','n'] ['M'] = false := by decide

/-- C5 (amended): the compose/decompose round trip re-selects exactly the
subgroup's rows provided the gender value is fixed by normalisation
(already lowercase and space-free) and contains no underscore, the
normalised nationality value contains no underscore, and no nationality
value occurring in the table collides with it under normalisation. -/
theorem C5_roundtrip (fpfnth : List CurveRow) (n g : Val)
    (hg : normVal g = g) (hn : '_' ∉ normVal n) (hgu : '_' ∉ g)
    (hinj : ∀ r ∈ fpfnth, normVal (r.tag "ref_nationality") = normVal n →
      r.tag "ref_nationality" = n) :
    roundTripExact fpfnth n g = true := by
  unfold roundTripExact
  have hname : sg_name [("ref_nationality", n), ("ref_gender", g)] =
      normVal n ++ '_' :: normVal g := rfl
  rw [hname, hg, splitUnder_append _ _ hn, splitUnder_of_not_mem g hgu]
  show (sgFilterRows fpfnth (normVal n) g ==
    fpfnth.filter (fun r =>
      r.tag "ref_nationality" == n && r.tag "ref_gender" == g)) = true
  rw [beq_iff_eq]
  unfold sgFilterRows
  apply List.filter_congr
  intro r hr
  by_cases h1 : r.tag "ref_nationality" = n
  · rw [h1, beq_self_eq_true, beq_self_eq_true]
  · have h2 : normVal (r.tag "ref_nationality") ≠ normVal n :=
      fun hc => h1 (hinj r hr hc)
    rw [Bool.eq_iff_iff]
    simp only [Bool.and_eq_true, beq_iff_eq]
    constructor
    · rintro ⟨hcontra, -⟩
      exact absurd hcontra h2
    · rintro ⟨hcontra, -⟩
      exact absurd hcontra h1

/-- C5, witness: the combination nationality `in`, gender `m` over a table
whose only row is tagged with exactly those values round-trips losslessly. -/
theorem C5_witness :
    roundTripExact [⟨some 0, some 0, 0,
      [("ref_nationality", ['i','n']), ("ref_gender", ['m'])]⟩]
      ['i','n'] ['m'] = true :=
  C5_roundtrip [⟨some 0, some 0, 0,
      [("ref_nationality", ['i','n']), ("ref_gender", ['m'])]⟩]
    ['i','n'] ['m'] (by decide) (by decide) (by decide) (by decide)

/-! ## Claim C6 -/

theorem length_flatten_const {α β : Type} (l : List α) (f : α → List β) (c : Nat)
    (h : ∀ a ∈ l, (f a).length = c) : ((l.map f).flatten).length = l.length * c := by
  induction l with
  | nil => simp
  | cons a rest ih =>
    have ha := h a (List.mem_cons_self ..)
    have hrest := ih (fun x hx => h x (List.mem_cons_of_mem _ hx))
    simp only [List.map_cons, List.flatten_cons, List.length_append, ha,
      List.length_cons, hrest]
    ring

/-- Re-filtering a combination's rows by its own attribute values yields
exactly the rows used (round-trip fidelity). -/
theorem subgroup_idem (df : List Trial) (fi : FItem) :
    subgroup (subgroup df fi) fi = subgroup df fi := by
  unfold subgroup
  rw [List.filter_filter]
  apply List.filter_congr
  intro t ht
  exact Bool.and_self _

/-- C6: for one to three attribute names, the enumeration of
`sg_fpfnth_metrics` produces exactly `|V1| × ... × |Vk|` combinations
(hence at most that many), drawn from the sorted distinct column values in
key order; and each combination's record set is exact-match filtering, so
re-filtering it by the combination's own values returns it unchanged. -/
theorem C6_enumeration (df : List Trial) (keys : List String) (items : List FItem)
    (hk3 : keys.length ≤ 3)
    (hitems : build_filter_items df keys = some items) :
    items.length = (keys.map (fun k => (columnValues df k).length)).prod ∧
    (∀ fi ∈ items, fi.map Prod.fst = keys) ∧
    (∀ fi ∈ items, ∀ kv ∈ fi, kv.2 ∈ columnValues df kv.1) ∧
    (∀ fi ∈ items, subgroup (subgroup df fi) fi = subgroup df fi) := by
  rcases keys with _ | ⟨k0, _ | ⟨k1, _ | ⟨k2, krest⟩⟩⟩
  · simp [build_filter_items] at hitems
  · simp only [build_filter_items, Option.some.injEq] at hitems
    subst hitems
    refine ⟨by simp, ?_, ?_, fun fi _ => subgroup_idem df fi⟩
    · intro fi hfi
      obtain ⟨v0, hv0, rfl⟩ := List.mem_map.mp hfi
      rfl
    · intro fi hfi kv hkv
      obtain ⟨v0, hv0, rfl⟩ := List.mem_map.mp hfi
      simp only [List.mem_singleton] at hkv
      subst hkv
      exact hv0
  · simp only [build_filter_items, Option.some.injEq] at hitems
    subst hitems
    refine ⟨?_, ?_, ?_, fun fi _ => subgroup_idem df fi⟩
    · rw [length_flatten_const _ _ (columnValues df k1).length (by simp)]
      simp [Nat.mul_comm, Nat.mul_assoc]
    · intro fi hfi
      obtain ⟨inner, hinner, hfi2⟩ := List.mem_flatten.mp hfi
      obtain ⟨v0, hv0, rfl⟩ := List.mem_map.mp hinner
      obtain ⟨v1, hv1, rfl⟩ := List.mem_map.mp hfi2
      rfl
    · intro fi hfi kv hkv
      obtain ⟨inner, hinner, hfi2⟩ := List.mem_flatten.mp hfi
      obtain ⟨v0, hv0, rfl⟩ := List.mem_map.mp hinner
      obtain ⟨v1, hv1, rfl⟩ := List.mem_map.mp hfi2
      simp only [List.mem_cons, List.mem_singleton, List.not_mem_nil,
        or_false] at hkv
      rcases hkv with rfl | rfl
      · exact hv0
      · exact hv1
  · have hkr : krest = [] := by
      simp only [List.length_cons] at hk3
      cases krest with
      | nil => rfl
      | cons a t => simp at hk3
    subst hkr
    simp only [build_filter_items, Option.some.injEq] at hitems
    subst hitems
    refine ⟨?_, ?_, ?_, fun fi _ => subgroup_idem df fi⟩
    · rw [length_flatten_const _ _
        ((columnValues df k1).length * (columnValues df k2).length) ?inner]
      case inner =>
        intro v0 hv0
        rw [length_flatten_const _ _ (columnValues df k2).length (by simp)]
      simp [List.prod_cons]
    · intro fi hfi
      obtain ⟨outer, houter, hfi1⟩ := List.mem_flatten.mp hfi
      obtain ⟨v0, hv0, rfl⟩ := List.mem_map.mp houter
      obtain ⟨inner, hinner, hfi2⟩ := List.mem_flatten.mp hfi1
      obtain ⟨v1, hv1, rfl⟩ := List.mem_map.mp hinner
      obtain ⟨v2, hv2, rfl⟩ := List.mem_map.mp hfi2
      rfl
    · intro fi hfi kv hkv
      obtain ⟨outer, houter, hfi1⟩ := List.mem_flatten.mp hfi
      obtain ⟨v0, hv0, rfl⟩ := List.mem_map.mp houter
      obtain ⟨inner, hinner, hfi2⟩ := List.mem_flatten.mp hfi1
      obtain ⟨v1, hv1, rfl⟩ := List.mem_map.mp hinner
      obtain ⟨v2, hv2, rfl⟩ := List.mem_map.mp hfi2
      simp only [List.mem_cons, List.mem_singleton, List.not_mem_nil,
        or_false] at hkv
      rcases hkv with rfl | rfl | rfl
      · exact hv0
      · exact hv1
      · exact hv2

/-- C6, witness: two records, keys `a` and `b`, two distinct values each:
the enumeration is the 2 x 2 nested product over the sorted values. -/
theorem C6_witness :
    wItems2.length =
      ((["a", "b"] : List String).map
        (fun k => (columnValues wDf2 k).length)).prod ∧
    (∀ fi ∈ wItems2, fi.map Prod.fst = ["a", "b"]) ∧
    (∀ fi ∈ wItems2, ∀ kv ∈ fi, kv.2 ∈ columnValues wDf2 kv.1) ∧
    (∀ fi ∈ wItems2, subgroup (subgroup wDf2 fi) fi = subgroup wDf2 fi) :=
  C6_enumeration wDf2 ["a", "b"] wItems2 (by decide) (by decide)

/-! ## Claim C7 -/

/-- The subgroup loop is exactly the accumulation of the successful
combinations: skipped combinations contribute neither curve rows nor
metrics. -/
theorem sgLoop_foldl (curve : Curve) (dcf_p_target dcf_c_fn dcf_c_fp : ℚ)
    (df : List Trial) (items : List FItem)
    (acc : List (List CurveRow) × MetricsMap) :
    items.foldl (sgStep curve dcf_p_target dcf_c_fn dcf_c_fp df) acc =
      (acc.1 ++ (successes curve dcf_p_target dcf_c_fn dcf_c_fp df items).map
          (fun s => tagRows s.2.1 s.1),
        (successes curve dcf_p_target dcf_c_fn dcf_c_fp df items).foldl
          (fun m s => dictSet m (sg_name s.1) s.2.2) acc.2) := by
  induction items generalizing acc with
  | nil => simp [successes]
  | cons fi rest ih =>
    simp only [List.foldl_cons, successes, List.filterMap_cons]
    cases hres : fpfnth_metrics curve (subgroup df fi)
        dcf_p_target dcf_c_fn dcf_c_fp with
    | error e =>
      have hstep : sgStep curve dcf_p_target dcf_c_fn dcf_c_fp df acc fi = acc := by
        simp [sgStep, hres]
      rw [hstep]
      simpa [successes] using ih acc
    | ok o =>
      cases o with
      | none =>
        have hstep : sgStep curve dcf_p_target dcf_c_fn dcf_c_fp df acc fi = acc := by
          simp [sgStep, hres]
        rw [hstep]
        simpa [successes] using ih acc
      | some tm =>
        obtain ⟨tbl, m⟩ := tm
        have hstep : sgStep curve dcf_p_target dcf_c_fn dcf_c_fp df acc fi =
            (acc.1 ++ [tagRows tbl fi], dictSet acc.2 (sg_name fi) m) := by
          simp [sgStep, hres]
        rw [hstep]
        rw [ih]
        simp [successes, List.append_assoc]

/-- C7, counterexample.  On a table whose single enumerated combination
fails (the curve capability raises), every combination is skipped, the list
of per-subgroup curve tables is empty, and `pd.concat([])` raises — the
evaluation aborts instead of returning (empty) partial results, although the
claim says a failing combination is "skipped without raising" and partial
results are always returned. -/
theorem C7_counterexample :
    sg_fpfnth_metrics wFailCurve [wTrialA] ["a"] (1/20) 1 1 = .error () := rfl

/-- C7 (amended): provided at least one combination succeeds, a combination
whose filtered record set is empty or whose curve/operating-point
computation fails is skipped without raising and contributes nothing to the
output, and the evaluation returns exactly the successful combinations'
tagged curve tables (concatenated in enumeration order) and their metrics;
when every combination fails, the final `pd.concat([])` raises. -/
theorem C7_partial_results (curve : Curve) (df : List Trial)
    (keys : List String) (dcf_p_target dcf_c_fn dcf_c_fp : ℚ)
    (items : List FItem)
    (hitems : build_filter_items df keys = some items)
    (hsucc : successes curve dcf_p_target dcf_c_fn dcf_c_fp df items ≠ []) :
    sg_fpfnth_metrics curve df keys dcf_p_target dcf_c_fn dcf_c_fp =
      .ok (((successes curve dcf_p_target dcf_c_fn dcf_c_fp df items).map
          (fun s => tagRows s.2.1 s.1)).flatten,
        (successes curve dcf_p_target dcf_c_fn dcf_c_fp df items).foldl
          (fun m s => dictSet m (sg_name s.1) s.2.2) []) := by
  simp only [sg_fpfnth_metrics, hitems]
  rw [sgLoop_foldl]
  have hne : ((successes curve dcf_p_target dcf_c_fn dcf_c_fp df items).map
      (fun s => tagRows s.2.1 s.1)).isEmpty = false := by
    cases hsu : successes curve dcf_p_target dcf_c_fn dcf_c_fp df items with
    | nil => exact absurd hsu hsucc
    | cons a t => simp
  simp [hne]

/-- C7, witness: a single successful combination; the evaluation returns
exactly its tagged curve table and metrics. -/
theorem C7_witness :
    sg_fpfnth_metrics wCurve [wTrialA] ["a"] (1/2) 2 2 =
      .ok (((successes wCurve (1/2) 2 2 [wTrialA] [[("a", ['x'])]]).map
          (fun s => tagRows s.2.1 s.1)).flatten,
        (successes wCurve (1/2) 2 2 [wTrialA] [[("a", ['x'])]]).foldl
          (fun m s => dictSet m (sg_name s.1) s.2.2) []) :=
  C7_partial_results wCurve [wTrialA] ["a"] (1/2) 2 2 [[("a", ['x'])]]
    (by decide)
    (by
      have hval : successes wCurve (1/2) 2 2 [wTrialA] [[("a", ['x'])]] =
          [([("a", ['x'])], [⟨some 0, some 1, 1, []⟩, ⟨some 1, some 0, 2, []⟩],
            ⟨1, 1, 100, 1⟩)] := by
        have hm : matchesItem wTrialA [("a", ['x'])] = true := by decide
        simp only [successes, List.filterMap_cons, List.filterMap_nil, subgroup,
          List.filter_cons, List.filter_nil, hm, if_true]
        norm_num [fpfnth_metrics, evaluate_sv, wCurve, wTrialA, compute_min_cdet,
          cdetList, eerDiffList, nanargmin, oAdd, oMul, oSub, oAbs, oMax, mkRows,
          List.getD]
      rw [hval]
      exact List.cons_ne_nil _ _)

/-! ## Claim C9 -/

/-- C9: on an empty score/label table, `fpfnth_metrics` does not fail — it
takes the `else` branch and returns Python `None` (modelled `.ok none`), the
branch the source itself marks `#TO DO: silent pass --> consider response`.
The claim (and §7 of the spec) requires the computation to fail fatally with
the error surfaced to the immediate caller; the code instead silently
returns a non-result, so the code contradicts the specified error contract. -/
theorem C9_empty_input_returns_none (curve : Curve)
    (dcf_p_target dcf_c_fn dcf_c_fp : ℚ) :
    fpfnth_metrics curve [] dcf_p_target dcf_c_fn dcf_c_fp = .ok none := rfl

/-! ## Claim C10 -/

/-- C10, counterexample.  `compare_experiments` executes
`df = v[0]; df[comparison] = k`, assigning the comparison column on the
caller's own curve table: after the call the input table's row has gained
the `("exp", ['e'])` tag — the inputs are modified, contradicting
"none of the input curve tables ... have been modified". -/
theorem C10_counterexample :
    inputTablesAfter (compare_experiments
        [(['e'], [⟨none, none, 0, []⟩], [])] "exp") ≠
      some [[⟨none, none, 0, []⟩]] := by decide

/-- C10 (amended): `compare_experiments` performs pure concatenation and
label tagging with no recomputation — the returned table is exactly the
concatenation of the tagged input tables, and the metrics mappings are
passed through unmodified — but the tagging assigns the comparison column
on each input curve table in place, so after the call every input curve
table has gained the comparison column (the metrics mappings are not
modified). -/
theorem C10_compare (exps : List (Val × List CurveRow × MetricsMap))
    (comparison : String) (hne : exps ≠ []) :
    ∃ after,
      compare_experiments exps comparison =
        .ok ((after.flatten, exps.map (fun e => (e.1, e.2.2))), after) ∧
      after = exps.map (fun e =>
        e.2.1.map (fun r => { r with tags := setAssoc r.tags comparison e.1 })) := by
  cases exps with
  | nil => exact absurd rfl hne
  | cons e0 erest => exact ⟨_, rfl, rfl⟩

/-- C10, witness: one experiment with one untagged row; the output table is
the tagged row and the input table after the call carries the tag. -/
theorem C10_witness :
    ∃ after,
      compare_experiments [(['e'], [⟨none, none, 0, []⟩], [])] "exp" =
        .ok ((after.flatten,
          ([(['e'], [⟨none, none, 0, []⟩], [])] :
            List (Val × List CurveRow × MetricsMap)).map
              (fun e => (e.1, e.2.2))), after) ∧
      after = ([(['e'], [⟨none, none, 0, []⟩], [])] :
          List (Val × List CurveRow × MetricsMap)).map (fun e =>
        e.2.1.map (fun r => { r with tags := setAssoc r.tags "exp" e.1 })) :=
  C10_compare [(['e'], [⟨none, none, 0, []⟩], [])] "exp" (List.cons_ne_nil _ _)

end SvevaFair